import Mathlib

/-!
Shallow embedding of the core pipeline of `src/app.py` (RSS client-mentions
monitor): text normalisation, client-name pattern matching, relevance
scoring, entry dedup, recency filtering, and the concurrent scan
orchestrator `RSSClientMonitor.scan_feeds_concurrent`.

Modelling conventions, fixed throughout this file:
* Python `str` is modelled as `List Char`.
* Python `float` relevance scores are modelled exactly in *tenths* over `Int`:
  every constant in `_calculate_relevance_score` (1.0, 2.0, 0.7, 0.5, 0.3,
  5.0) is a multiple of 0.1 and every partial sum stays one, so the score
  `s` of the code is represented by the integer `10*s` (e.g. 4.2 ↦ 42,
  5.0 ↦ 50).  This is the ideal-arithmetic reading of the float heuristic.
* Python `datetime` instants are modelled as `Int` seconds; `timedelta(days=d)`
  is `d * 86400` seconds.  `datetime.now(timezone.utc)` is a parameter of the
  scan (`now`), and the local-time `strftime` rendering used for display is an
  abstract parameter `ts_render : Int → List Char`.
* The Unicode character data used by `str.lower`, `unicodedata.normalize("NFKD", ·)`,
  `unicodedata.combining` and `\w` is modelled by finite tables (`lowerChar`,
  `nfkdChar`, `combiningB`, `isWordCharB`) that follow the Unicode character
  database on the characters exercised in this development (ASCII, É/é,
  U+0301 COMBINING ACUTE ACCENT, U+1D2C MODIFIER LETTER CAPITAL A, the
  apostrophes U+2019 and U+02BC); every other character is modelled as
  case-less, non-combining, NFKD-inert and a non-word character.
-/

/-- Convert a Lean string literal to the `List Char` representation of
Python strings used throughout this file. -/
def chars (s : String) : List Char := s.toList

/-- Python `str.lower()` character mapping (one character to one character on
the modelled fragment): ASCII `A`–`Z` map to `a`–`z`, `É` maps to `é`,
everything else is fixed.  Also used for `re.IGNORECASE` comparison, which
agrees with it on this fragment. -/
def lowerChar (c : Char) : Char :=
  if 'A' ≤ c ∧ c ≤ 'Z' then Char.ofNat (c.toNat + 32)
  else if c = 'É' then 'é'
  else c

/-- `unicodedata.normalize("NFKD", ·)` per-character decomposition on the
modelled fragment: `é`/`É` decompose into the base letter followed by
U+0301 COMBINING ACUTE ACCENT, U+1D2C MODIFIER LETTER CAPITAL A has the
compatibility decomposition `A`, and every other character is inert.
Applying NFKD to a whole string concatenates per-character decompositions
followed by canonical reordering of combining marks; since `_normalise_text`
then deletes every combining mark, the reordering is invisible and the
charwise model is exact for that composition. -/
def nfkdChar (c : Char) : List Char :=
  if c = 'é' then [ 'e', Char.ofNat 769 ]
  else if c = 'É' then [ 'E', Char.ofNat 769 ]
  else if c = 'ᴬ' then [ 'A' ]
  else [ c ]

/-- `unicodedata.combining(ch) != 0` on the modelled fragment: only
U+0301 COMBINING ACUTE ACCENT (code point 769) is a combining mark. -/
def combiningB (c : Char) : Bool := c.toNat = 769

/-- `_normalise_text` (src/app.py:235-238): lower-case, NFKD-decompose, and
drop combining marks. -/
def normalise_text (s : List Char) : List Char :=
  ((s.map lowerChar).flatMap nfkdChar).filter (fun c => !combiningB c)

/-- Python `\s` whitespace (`str.strip()` / `re \s`) on the modelled fragment. -/
def isPySpace (c : Char) : Bool :=
  c = ' ' || c = '\t' || c = '\n' || c = '\r' || c = Char.ofNat 11 || c = Char.ofNat 12

/-- Python `str.strip()`: drop leading and trailing whitespace. -/
def trimChars (s : List Char) : List Char :=
  ((s.dropWhile isPySpace).reverse.dropWhile isPySpace).reverse

/-- Python substring test `needle in hay`. -/
def infixOfB (needle : List Char) : List Char → Bool
  | [] => needle.isPrefixOf []
  | c :: rest => needle.isPrefixOf (c :: rest) || infixOfB needle rest

/-- Fuel-driven core of `str.count`: count non-overlapping occurrences of a
non-empty `needle`, scanning left to right.  `fuel ≥ hay.length` makes the
fuel irrelevant. -/
def countGo (needle : List Char) : Nat → List Char → Nat
  | 0, _ => 0
  | _ + 1, [] => 0
  | fuel + 1, c :: rest =>
    if needle.isPrefixOf (c :: rest) then
      1 + countGo needle fuel ((c :: rest).drop needle.length)
    else countGo needle fuel rest

/-- Python `hay.count(needle)`: non-overlapping occurrences; for an empty
needle Python returns `len(hay) + 1`. -/
def count_occurrences (needle hay : List Char) : Nat :=
  if needle = [] then hay.length + 1 else countGo needle hay.length hay

/-- The fixed keyword list of `_calculate_relevance_score`. -/
def keyword_list : List (List Char) :=
  [chars ("album"), chars ("single"), chars ("tour"), chars ("concert"),
   chars ("release"), chars ("new"), chars ("announces"), chars ("performs")]

/-- `_calculate_relevance_score` (src/app.py:259-274), scores in tenths
(1.0 ↦ 10, 2.0 ↦ 20, 0.7 ↦ 7, 0.5 ↦ 5, 0.3 ↦ 3, clamp 5.0 ↦ 50).
The final `min(score, 5.0)` is written out as Python defines `min`. -/
def calculate_relevance_score (text client title : List Char) : Int :=
  let norm_text := normalise_text text
  let norm_client := normalise_text client
  let norm_title := normalise_text title
  let s1 : Int := 10
  let s2 := if infixOfB norm_client norm_title then s1 + 20 else s1
  let s3 := if infixOfB norm_client (norm_text.take 200) then s2 + 7 else s2
  let mentions := count_occurrences norm_client norm_text
  let s4 := if 1 < mentions then s3 + 5 * ((mentions : Int) - 1) else s3
  let s5 := keyword_list.foldl
    (fun sc kw => if infixOfB kw norm_text then sc + 3 else sc) s4
  if s5 ≤ 50 then s5 else 50

/-- Python `\w` (`re` word character, Unicode mode) on the modelled fragment:
ASCII alphanumerics, underscore, and the fragment letters `é`, `É`,
U+1D2C (category Lm, hence a word character). -/
def isWordCharB (c : Char) : Bool :=
  c.isAlpha || c.isDigit || c = '_' || c = 'é' || c = 'É' || c = 'ᴬ'

/-- Whether the character at index `i` of `t` is a word character
(`false` beyond either end of the string). -/
def wordAt (t : List Char) (i : Nat) : Bool :=
  match t.get? i with
  | some c => isWordCharB c
  | none => false

/-- Whether the character just before index `i` is a word character
(`false` at the start of the string). -/
def prevWordAt (t : List Char) (i : Nat) : Bool :=
  match i with
  | 0 => false
  | j + 1 => wordAt t j

/-- `BOUNDARY = (?:(?<!\w)|\b)` (src/app.py:232) evaluated at position `i`:
either the previous character is not a word character, or `\b` holds, i.e.
the word-ness of the previous character and of the character at `i` differ. -/
def boundaryAt (t : List Char) (i : Nat) : Bool :=
  (!prevWordAt t i) || (prevWordAt t i != wordAt t i)

/-- Case-insensitive character comparison, modelling `re.IGNORECASE`. -/
def charIEq (c d : Char) : Bool := lowerChar c = lowerChar d

/-- The character at index `i` of `t` equals `c` up to case. -/
def litAt (t : List Char) (i : Nat) (c : Char) : Bool :=
  match t.get? i with
  | some d => charIEq d c
  | none => false

/-- The literal sequence `cs` occurs at index `i` of `t`, up to case. -/
def seqAt (t : List Char) (i : Nat) : List Char → Bool
  | [] => true
  | c :: cs => litAt t i c && seqAt t (i + 1) cs

/-- `APOS_CLASS = [\'’ʼ]` (src/app.py:231) at index `i`. -/
def aposAt (t : List Char) (i : Nat) : Bool :=
  match t.get? i with
  | some d => d = Char.ofNat 39 || d = '’' || d = 'ʼ'
  | none => false

/-- Variant 1 of `_name_variants`: regex `BOUNDARY{base}END_BOUND` matching
at position `i` (the match is the bare name). -/
def matchV1At (base t : List Char) (i : Nat) : Bool :=
  boundaryAt t i && seqAt t i base && !wordAt t (i + base.length)

/-- Variant 2: `BOUNDARY{base}APOS_CLASS s END_BOUND` (possessive form). -/
def matchV2At (base t : List Char) (i : Nat) : Bool :=
  boundaryAt t i && seqAt t i base && aposAt t (i + base.length) &&
    litAt t (i + base.length + 1) 's' && !wordAt t (i + base.length + 2)

/-- Variant 3: `BOUNDARY@{base}END_BOUND` (@-mention form). -/
def matchV3At (base t : List Char) (i : Nat) : Bool :=
  boundaryAt t i && litAt t i '@' && seqAt t (i + 1) base &&
    !wordAt t (i + 1 + base.length)

/-- Variant 4: `BOUNDARY#{base}END_BOUND` (hashtag form). -/
def matchV4At (base t : List Char) (i : Nat) : Bool :=
  boundaryAt t i && litAt t i '#' && seqAt t (i + 1) base &&
    !wordAt t (i + 1 + base.length)

/-- The alternation of the four variants at position `i`. -/
def anyVariantAt (base t : List Char) (i : Nat) : Bool :=
  matchV1At base t i || matchV2At base t i || matchV3At base t i || matchV4At base t i

/-- `pattern.search(t)` for the compiled pattern of a client whose
normalised, stripped name is `base`: some variant matches at some position.
`re.escape` only protects regex metacharacters, so the escaped `base`
matches exactly the literal sequence `base`. -/
def patternSearch (base t : List Char) : Bool :=
  (List.range (t.length + 1)).any (fun i => anyVariantAt base t i)

/-- `_name_variants` (src/app.py:240-250) reduced to its data content: the
normalised, stripped name, or `none` when its length is `< 3` (in which
case the code returns no variants and no pattern is compiled). -/
def name_variants_base (name : List Char) : Option (List Char) :=
  let base := trimChars (normalise_text name)
  if base.length < 3 then none else some base

/-- Keep the first occurrence of each element (Python `dict` insertion
semantics for `compiled[name] = …`). -/
def dedupFirstGo (seen : List (List Char)) : List (List Char) → List (List Char)
  | [] => []
  | c :: rest =>
    if c ∈ seen then dedupFirstGo seen rest
    else c :: dedupFirstGo (c :: seen) rest

/-- First-occurrence deduplication of a list of names. -/
def dedupFirst (l : List (List Char)) : List (List Char) := dedupFirstGo [] l

/-- `RSSClientMonitor._compile_client_patterns` (src/app.py:302-309) composed
with the `__init__` filter `[c for c in clients if c]`: the association list
of (client name, normalised base) for every client that gets a compiled
pattern, in `dict` insertion order. -/
def compile_client_patterns (clients : List (List Char)) :
    List (List Char × List Char) :=
  (dedupFirst (clients.filter (fun c => c ≠ []))).filterMap
    (fun n => match name_variants_base n with
      | some b => some (n, b)
      | none => none)

/-- `RSSClientMonitor._match_clients_in_text` (src/app.py:311-313): the
clients whose pattern fires on the normalised text, in pattern order. -/
def match_clients_in_text (clients : List (List Char)) (text : List Char) :
    List (List Char) :=
  let n := normalise_text text
  (compile_client_patterns clients).filterMap
    (fun p => if patternSearch p.2 n then some p.1 else none)

/-- Valid scheme characters after the first (RFC 3986, as `urllib.parse`
checks them). -/
def isSchemeChar (c : Char) : Bool :=
  c.isAlpha || c.isDigit || c = '+' || c = '-' || c = '.'

/-- Split a Python-style URL at its first `:` into a scheme and the rest,
when the prefix before the `:` is a syntactically valid scheme
(letter first, then letters/digits/`+`/`-`/`.`); the scheme is lower-cased
as `urllib.parse.urlsplit` does.  Otherwise there is no scheme. -/
def splitScheme (s : List Char) : List Char × List Char :=
  match s.findIdx? (fun c => c = ':') with
  | some i =>
    let sc := s.take i
    if (!sc.isEmpty) && (match sc.head? with | some c => c.isAlpha | none => false) &&
        sc.all isSchemeChar
    then (sc.map lowerChar, s.drop (i + 1))
    else ([], s)
  | none => ([], s)

/-- Characters that terminate the netloc component. -/
def isNetlocEnd (c : Char) : Bool := c = '/' || c = '?' || c = '#'

/-- `urlsplit` first deletes every tab, carriage return and line feed from
its argument (`_UNSAFE_URL_BYTES_TO_REMOVE`, present in all maintained
CPython releases since 2021). -/
def stripUnsafe (s : List Char) : List Char :=
  s.filter (fun c => !(c == '\t' || c == '\r' || c == '\n'))

/-- `urlsplit`'s IPv6-bracket sanity check on the extracted netloc: a `[`
without `]`, or a `]` without `[`, raises `ValueError("Invalid IPv6 URL")`.
(CPython ≥ 3.11 additionally validates the contents of a *matched* bracket
pair, and a separate check rejects netlocs whose NFKC normalisation
introduces a URL delimiter; both only concern inputs outside the character
fragment this development's theorems quantify over.) -/
def bracket_mismatch (netloc : List Char) : Bool :=
  (decide ('[' ∈ netloc) && !decide (']' ∈ netloc)) ||
    (decide (']' ∈ netloc) && !decide ('[' ∈ netloc))

/-- `urllib.parse.urlparse(url).netloc`: after deleting unsafe characters
and removing any scheme, a netloc is present exactly when the remainder
starts with `//`, and runs to the next `/`, `?` or `#`. -/
def urlNetloc (url : List Char) : List Char :=
  match (splitScheme (stripUnsafe url)).2 with
  | '/' :: '/' :: rest => rest.takeWhile (fun c => !isNetlocEnd c)
  | _ => []

/-- Fuel-driven non-overlapping left-to-right removal of every occurrence of
a non-empty `needle` (Python `str.replace(needle, "")`).  `fuel ≥ s.length`
makes the fuel irrelevant. -/
def removeAllGo (needle : List Char) : Nat → List Char → List Char
  | 0, s => s
  | _ + 1, [] => []
  | fuel + 1, c :: rest =>
    if needle.isPrefixOf (c :: rest) then
      removeAllGo needle fuel ((c :: rest).drop needle.length)
    else c :: removeAllGo needle fuel rest

/-- Python `s.replace(needle, "")` for non-empty `needle`. -/
def removeAll (needle s : List Char) : List Char := removeAllGo needle s.length s

/-- `RSSClientMonitor._get_domain` (src/app.py:356-360):
`urlparse(url).netloc.lower().replace('www.', '') or "unknown"`.  Note that
`str.replace` removes *every* occurrence of `"www."`, not only a leading
one.  The `except` branch is reachable: `urlparse` raises `ValueError` when
the netloc contains an unmatched bracket (e.g. for `http://[::1/x`), and
the code then returns `"unknown"`. -/
def get_domain (url : List Char) : List Char :=
  let netloc := urlNetloc url
  if bracket_mismatch netloc then chars ("unknown")
  else
    let d := removeAll (chars ("www.")) (netloc.map lowerChar)
    if d = [] then chars ("unknown") else d

/-- The tracking query parameters removed by `canonicalise_url`
(src/app.py:160). -/
def tracking_params : List (List Char) :=
  [chars ("utm_source"), chars ("utm_medium"), chars ("utm_campaign"),
   chars ("utm_term"), chars ("utm_content"), chars ("fbclid"),
   chars ("gclid"), chars ("igshid")]

/-- One `parse_qsl`/`urlencode` round trip of a single `k=v` query piece:
drop it when the key is a tracking parameter, otherwise re-emit `k=v`
(a piece without `=` has value `""`, kept by `keep_blank_values=True` and
re-emitted as `k=`).  Percent-encoding is modelled as the identity, which is
exact on unreserved characters. -/
def canonQueryPiece (piece : List Char) : Option (List Char) :=
  let k := piece.takeWhile (fun c => c ≠ '=')
  let v := (piece.dropWhile (fun c => c ≠ '=')).drop 1
  if k ∈ tracking_params then none else some (k ++ [ '=' ] ++ v)

/-- `parse_qsl` + tracking-parameter filter + `urlencode` of a query string:
split on `&`, drop empty pieces, filter, re-join with `&`. -/
def canonQuery (q : List Char) : List Char :=
  List.intercalate ([ '&' ])
    (((q.splitOn '&').filter (fun p => p ≠ [])).filterMap canonQueryPiece)

/-- `canonicalise_url` (src/app.py:162-174): parse, default the scheme to
`https`, lower-case the netloc, drop the fragment, remove tracking query
parameters, and reassemble as `urlunparse` does (`//` is emitted exactly
when the netloc is non-empty; an empty query contributes no `?`).  When
`urlparse` raises `ValueError` on an unmatched-bracket netloc, the
`except` branch returns `url or ""`, i.e. the original URL. -/
def canonicalise_url (url : List Char) : List Char :=
  let p1 := (stripUnsafe url).takeWhile (fun c => c ≠ '#')
  let sp := splitScheme p1
  let scheme := sp.1
  let rest := sp.2
  let netloc := if (chars ("//")).isPrefixOf rest then
      (rest.drop 2).takeWhile (fun c => !isNetlocEnd c)
    else []
  if bracket_mismatch netloc then url
  else
    let rest2 := if (chars ("//")).isPrefixOf rest then
        (rest.drop 2).dropWhile (fun c => !isNetlocEnd c)
      else rest
    let path := rest2.takeWhile (fun c => c ≠ '?')
    let query := (rest2.dropWhile (fun c => c ≠ '?')).drop 1
    let scheme2 := if scheme = [] then chars ("https") else scheme
    let q2 := canonQuery query
    scheme2 ++ [ ':' ] ++
      (if netloc ≠ [] then chars ("//") ++ netloc.map lowerChar else []) ++
      path ++ (if q2 ≠ [] then '?' :: q2 else [])

/-- Fuel-driven model of `re.sub(r"<[^>]+>", " ", text)`: at each `<`, if at
least one non-`>` character is followed by a `>`, the whole `<…>` span is
replaced by one space; otherwise the `<` is kept and scanning continues.
`fuel ≥ s.length` makes the fuel irrelevant. -/
def stripTagsGo : Nat → List Char → List Char
  | 0, s => s
  | _ + 1, [] => []
  | fuel + 1, c :: rest =>
    if c = '<' then
      let inner := rest.takeWhile (fun d => d ≠ '>')
      let after := rest.dropWhile (fun d => d ≠ '>')
      match after with
      | '>' :: tail => if inner ≠ [] then ' ' :: stripTagsGo fuel tail
                       else c :: stripTagsGo fuel rest
      | _ => c :: stripTagsGo fuel rest
    else c :: stripTagsGo fuel rest

/-- `re.sub(r"<[^>]+>", " ", s)`. -/
def stripTags (s : List Char) : List Char := stripTagsGo s.length s

/-- `re.sub(r"\s+", " ", s)`: collapse every maximal whitespace run to a
single space (`prevSpace` records whether the previous character belonged
to a run already emitted). -/
def collapseWsGo (prevSpace : Bool) : List Char → List Char
  | [] => []
  | c :: rest =>
    if isPySpace c then
      if prevSpace then collapseWsGo true rest
      else ' ' :: collapseWsGo true rest
    else c :: collapseWsGo false rest

/-- `re.sub(r"\s+", " ", s)`. -/
def collapseWs (s : List Char) : List Char := collapseWsGo false s

/-- Single left-to-right pass of `html.unescape` on the modelled fragment of
named/numeric entities (`&amp;` `&lt;` `&gt;` `&quot;` `&#39;`); other
characters pass through.  `fuel ≥ s.length` makes the fuel irrelevant. -/
def unescapeGo : Nat → List Char → List Char
  | 0, s => s
  | _ + 1, [] => []
  | fuel + 1, c :: rest =>
    if (chars ("&amp;")).isPrefixOf (c :: rest) then
      '&' :: unescapeGo fuel ((c :: rest).drop 5)
    else if (chars ("&lt;")).isPrefixOf (c :: rest) then
      '<' :: unescapeGo fuel ((c :: rest).drop 4)
    else if (chars ("&gt;")).isPrefixOf (c :: rest) then
      '>' :: unescapeGo fuel ((c :: rest).drop 4)
    else if (chars ("&quot;")).isPrefixOf (c :: rest) then
      '"' :: unescapeGo fuel ((c :: rest).drop 6)
    else if (chars ("&#39;")).isPrefixOf (c :: rest) then
      Char.ofNat 39 :: unescapeGo fuel ((c :: rest).drop 5)
    else c :: unescapeGo fuel rest

/-- `html.unescape` on the modelled entity fragment. -/
def unescapeEntities (s : List Char) : List Char := unescapeGo s.length s

/-- `_clean_html` (src/app.py:252-257): empty in, empty out; otherwise strip
tags, collapse whitespace, unescape entities, and trim. -/
def clean_html (text : List Char) : List Char :=
  if text = [] then []
  else trimChars (unescapeEntities (collapseWs (stripTags text)))

/-- A parsed feed entry as delivered by `feedparser` and consumed by the
scan (the fields `src/app.py` reads via `entry.get`/`getattr`).  A missing
or falsy string field is the empty list, matching the code's uniform
`entry.get(k) or default` access.  The `*_parsed` timestamp fields hold the
UTC instant in seconds when the field is present and
`datetime(*st[:6], tzinfo=timezone.utc)` succeeds, and `none` otherwise
(both absence and a failing construction make the code fall through to the
next field). -/
structure Entry where
  id : List Char
  guid : List Char
  title : List Char
  summary : List Char
  description : List Char
  content_encoded : List Char
  content : List (List Char)
  link : List Char
  published_parsed : Option Int
  updated_parsed : Option Int
  created_parsed : Option Int
deriving DecidableEq

/-- `parse_datetime_from_entry` (src/app.py:208-220): first available of
published/updated/created. -/
def parse_datetime_from_entry (e : Entry) : Option Int :=
  match e.published_parsed with
  | some t => some t
  | none =>
    match e.updated_parsed with
    | some t => some t
    | none => e.created_parsed

/-- `within_days` (src/app.py:222-226): permissive `true` when the entry has
no date, else `dt >= now - timedelta(days=days)`. -/
def within_days (now : Int) (dt : Option Int) (days : Int) : Bool :=
  match dt with
  | none => true
  | some d => decide (now - days * 86400 ≤ d)

/-- `RSSClientMonitor.filter_recent_entries` (src/app.py:362-363). -/
def filter_recent_entries (now : Int) (entries : List Entry) (days : Int) :
    List Entry :=
  entries.filter (fun e => within_days now (parse_datetime_from_entry e) days)

/-- `RSSClientMonitor._entry_text` (src/app.py:328-338): join the non-empty
text parts with spaces and cap at 20000 characters. -/
def entry_text (e : Entry) : List Char :=
  (List.intercalate ([ ' ' ])
    (([e.title, e.summary, e.description, e.content_encoded] ++ e.content).filter
      (fun p => p ≠ []))).take 20000

/-- `RSSClientMonitor._format_date` (src/app.py:340-347): render the parsed
instant with the (abstracted) local-time `strftime`, else the
`"Unknown Date"` sentinel. -/
def format_date (ts_render : Int → List Char) (e : Entry) : List Char :=
  match parse_datetime_from_entry e with
  | some t => ts_render t
  | none => chars ("Unknown Date")

/-- `(entry.get("id") or entry.get("guid") or "").strip()` from
`_dedupe_key`. -/
def entry_guid (e : Entry) : List Char :=
  trimChars (if e.id ≠ [] then e.id else e.guid)

/-- `RSSClientMonitor._dedupe_key` (src/app.py:349-354).  The final
`md5(raw).hexdigest()` only compresses the key; it is modelled as the
identity on `raw` (collision-freedom abstraction — the spec treats hash
collisions as an accepted, non-semantic risk). -/
def dedupe_key (e : Entry) : List Char :=
  let guid := entry_guid e
  let link := canonicalise_url e.link
  let title := (trimChars e.title).map lowerChar
  if guid ≠ [] then guid else link ++ [ '|' ] ++ title

/-- The output record (src/app.py:279-289), with `relevance_score` in
tenths (see the header comment) and `found_date` the formatted
`datetime.now()` string taken as a scan parameter. -/
structure Match where
  client : List Char
  title : List Char
  description : List Char
  link : List Char
  published : List Char
  source : List Char
  domain : List Char
  found_date : List Char
  relevance_score : Int
deriving DecidableEq

/-- The scan environment: the client list the monitor was built with, the
scan instant `now` (seconds UTC), the lookback `days` argument, the
abstracted local-time timestamp rendering, and the formatted scan-time
string stored in `found_date`. -/
structure ScanCtx where
  clients : List (List Char)
  now : Int
  days : Int
  ts_render : Int → List Char
  found_date : List Char

/-- The state shared across feed tasks inside `scan_feeds_concurrent`: the
`seen` dedupe-key set (as the list of keys in insertion order — only
membership is ever consulted) and the accumulated `all_matches` list. -/
structure ScanState where
  seen : List (List Char)
  all_matches : List Match

/-- Construction of one `Match` for a matched client (src/app.py:401-420):
title/link fall back to the `"No Title"`/`"No Link"` placeholders, the
description is cleaned then truncated at 300 characters with an ellipsis
marker, and the domain is derived from the (possibly placeholder) link. -/
def mk_match (ctx : ScanCtx) (feed_url : List Char) (e : Entry)
    (text : List Char) (client : List Char) : Match :=
  let title := if e.title ≠ [] then e.title else chars ("No Title")
  let raw_desc := if e.description ≠ [] then e.description else e.summary
  let description := clean_html raw_desc
  { client := client
    title := title
    description := description.take 300 ++
      (if 300 < description.length then chars ("...") else [])
    link := if e.link ≠ [] then e.link else chars ("No Link")
    published := format_date ctx.ts_render e
    source := feed_url
    domain := get_domain (if e.link ≠ [] then e.link else chars ("No Link"))
    found_date := ctx.found_date
    relevance_score := calculate_relevance_score text client title }

/-- The per-entry body of the scan loop (src/app.py:387-420): skip on a seen
dedupe key, else mark seen; then skip on blank extracted text or no
matching client; else append one `Match` per matched client. -/
def process_entry (ctx : ScanCtx) (feed_url : List Char) (st : ScanState)
    (e : Entry) : ScanState :=
  let key := dedupe_key e
  if key ∈ st.seen then st
  else
    let seen2 := st.seen ++ [ key ]
    let text := entry_text e
    if trimChars text = [] then ⟨seen2, st.all_matches⟩
    else
      let matched := match_clients_in_text ctx.clients text
      if matched = [] then ⟨seen2, st.all_matches⟩
      else ⟨seen2, st.all_matches ++ matched.map (mk_match ctx feed_url e text)⟩

/-- The entries a feed task delivers to the orchestrator: the fetched list
on success, and `[]` when the task raised (the `except` branch at
src/app.py:381-385 converts a failure into an empty entry list). -/
def feed_entries (fetch : List Char → Except Unit (List Entry))
    (u : List Char) : List Entry :=
  match fetch u with
  | .ok es => es
  | .error _ => []

/-- The recency-surviving entries of one feed (src/app.py:387). -/
def recent_entries (ctx : ScanCtx) (fetch : List Char → Except Unit (List Entry))
    (u : List Char) : List Entry :=
  filter_recent_entries ctx.now (feed_entries fetch u) ctx.days

/-- Processing of one completed feed task over the shared state. -/
def process_feed (ctx : ScanCtx) (fetch : List Char → Except Unit (List Entry))
    (st : ScanState) (u : List Char) : ScanState :=
  (recent_entries ctx fetch u).foldl (process_entry ctx u) st

/-- Processing of all feed tasks in their completion order `order`. -/
def process_feeds (ctx : ScanCtx) (fetch : List Char → Except Unit (List Entry))
    (st : ScanState) (order : List (List Char)) : ScanState :=
  order.foldl (process_feed ctx fetch) st

/-- Python string comparison `a < b` (lexicographic by code point). -/
def strLtB : List Char → List Char → Bool
  | [], [] => false
  | [], _ :: _ => true
  | _ :: _, [] => false
  | a :: as_, b :: bs =>
    if a.toNat < b.toNat then true
    else if b.toNat < a.toNat then false
    else strLtB as_ bs

/-- The sort comparison of src/app.py:422: ascending in the key
`(-relevance_score, domain, title)`, i.e. relevance descending, then domain
ascending, then title ascending. -/
def matchLe (a b : Match) : Bool :=
  if b.relevance_score < a.relevance_score then true
  else if a.relevance_score < b.relevance_score then false
  else if strLtB a.domain b.domain then true
  else if strLtB b.domain a.domain then false
  else !strLtB b.title a.title

/-- `all_matches.sort(key=…)`: Python's `list.sort` is a stable sort by the
key above; any two stable sorts with respect to the same total preorder
agree, so it is modelled by the stable `List.insertionSort`. -/
def sort_matches (l : List Match) : List Match :=
  List.insertionSort (fun a b => matchLe a b = true) l

/-- `RSSClientMonitor.scan_feeds_concurrent` (src/app.py:365-423) with the
nondeterminism made explicit: `order` is the completion order in which
`as_completed` yields the feed tasks (a permutation of `self.rss_feeds`),
and `fetch` is the injected fetch function (`.error` standing for a raised
exception, which the orchestrator converts to zero entries). -/
def scan_feeds_ordered (ctx : ScanCtx)
    (fetch : List Char → Except Unit (List Entry))
    (order : List (List Char)) : List Match :=
  sort_matches (process_feeds ctx fetch ⟨[], []⟩ order).all_matches

/-- The 128 ASCII characters. -/
def asciiList : List Char := (List.range 128).map Char.ofNat

set_option maxRecDepth 8192 in
/-- Character-level facts on ASCII input: lower-casing stays ASCII, its
output is NFKD-inert, non-combining, and lower-case-fixed. -/
theorem ascii_char_facts : ∀ c ∈ asciiList,
    lowerChar c ∈ asciiList ∧ nfkdChar (lowerChar c) = [lowerChar c] ∧
    combiningB (lowerChar c) = false ∧ lowerChar (lowerChar c) = lowerChar c := by
  decide

/-- On ASCII strings, `_normalise_text` is plain per-character
lower-casing. -/
theorem normalise_text_ascii (s : List Char) (h : ∀ c ∈ s, c ∈ asciiList) :
    normalise_text s = s.map lowerChar := by
  induction s with
  | nil => rfl
  | cons c t ih =>
    have hc := ascii_char_facts c (h c (List.mem_cons_self c t))
    have ht := ih (fun d hd => h d (List.mem_cons_of_mem c hd))
    simp only [normalise_text, List.map_cons, List.flatMap_cons,
      List.filter_append, hc.2.1, hc.2.2.1, List.filter_cons,
      List.filter_nil, Bool.not_false, if_pos] at *
    simpa [hc.2.2.1] using ht

/-- Helper for (host-only) take-while computations: a run of characters all
satisfying `p` followed by a stopper is taken exactly. -/
theorem takeWhile_all_append (p : Char → Bool) (l1 l2 : List Char) (x : Char)
    (h1 : ∀ c ∈ l1, p c = true) (h2 : p x = false) :
    (l1 ++ x :: l2).takeWhile p = l1 := by
  induction l1 with
  | nil => simp [List.takeWhile, h2]
  | cons c t ih =>
    have hc := h1 c (List.mem_cons_self c t)
    simp [List.takeWhile, hc, ih (fun d hd => h1 d (List.mem_cons_of_mem c hd))]

/-- `removeAllGo` leaves a string without any occurrence of the needle
untouched. -/
theorem removeAllGo_of_no_infix (needle : List Char) :
    ∀ (fuel : Nat) (s : List Char), s.length ≤ fuel →
      infixOfB needle s = false → removeAllGo needle fuel s = s := by
  intro fuel
  induction fuel with
  | zero => intro s _ _; cases s <;> rfl
  | succ f ih =>
    intro s hlen hinf
    cases s with
    | nil => rfl
    | cons c rest =>
      have h2 : needle.isPrefixOf (c :: rest) = false ∧ infixOfB needle rest = false := by
        have := hinf
        simp [infixOfB] at this
        exact ⟨this.1, this.2⟩
      simp [removeAllGo, h2.1]
      exact ih rest (by simpa using Nat.le_of_succ_le_succ hlen) h2.2

/-- `str.replace(needle, "")` leaves a string without any occurrence of the
needle untouched. -/
theorem removeAll_of_no_infix (needle s : List Char)
    (hinf : infixOfB needle s = false) : removeAll needle s = s :=
  removeAllGo_of_no_infix needle s.length s (Nat.le_refl _) hinf

/-- `urlparse` netloc extraction on an explicit `http://…` URL: everything
up to the next delimiter. -/
theorem urlNetloc_http (s : List Char) :
    urlNetloc ('h' :: 't' :: 't' :: 'p' :: ':' :: '/' :: '/' :: s) =
      (stripUnsafe s).takeWhile (fun c => !isNetlocEnd c) := rfl

/-- The domain the C7 claim predicts, modelled from the spec's words: the
link's host lower-cased with one leading `www.` prefix removed (and only a
leading one), the `unknown` sentinel for an empty host. -/
def claimed_domain (url : List Char) : List Char :=
  let h := (urlNetloc url).map lowerChar
  let h2 := if (chars ("www.")).isPrefixOf h then h.drop 4 else h
  if h2 = [] then chars ("unknown") else h2

/-- C7 (counterexample): for the link `http://a.www.b/x`, whose host has no
leading `www.`, the code removes the interior `www.` and returns `a.b`,
while the claim predicts the unchanged host `a.www.b`. -/
theorem c7_get_domain_counterexample :
    get_domain (chars ("http://a.www.b/x")) = chars ("a.b") ∧
    claimed_domain (chars ("http://a.www.b/x")) = chars ("a.www.b") ∧
    get_domain (chars ("http://a.www.b/x")) ≠ claimed_domain (chars ("http://a.www.b/x")) := by
  decide

/-- A plain host character: ASCII, not a netloc delimiter, not a bracket,
and not one of the control characters `urlsplit` strips.  On hosts of such
characters the modelled parse agrees with CPython's: no delimiter cuts the
host short, nothing is stripped, the IPv6-bracket checks cannot fire, and
the ASCII restriction keeps clear of the interpreter's extra
NFKC-normalisation check on exotic netloc characters. -/
def plainHostChar (c : Char) : Bool :=
  decide (c.toNat < 128) && !isNetlocEnd c && c != '[' && c != ']' &&
    c != '\t' && c != '\r' && c != '\n'

/-- C7 (amended): for every entry link `http://host/…` whose host consists
of plain characters, the Match's domain equals the host lower-cased with
**every** occurrence of the substring `www.` removed (not only a leading
one), with the `unknown` sentinel when nothing remains; a host whose
lower-cased form contains no `www.` at all is unchanged apart from
lower-casing.  A link whose netloc has an unmatched bracket (such as
`http://[::1/x`) makes `urlparse` raise, and the `except` branch also
yields the `unknown` sentinel. -/
theorem c7_get_domain_amended (host path : List Char)
    (hw : ∀ c ∈ host, plainHostChar c = true) :
    (get_domain (chars ("http://") ++ host ++ '/' :: path) =
      (if removeAll (chars ("www.")) (host.map lowerChar) = [] then chars ("unknown")
       else removeAll (chars ("www.")) (host.map lowerChar))) ∧
    (infixOfB (chars ("www.")) (host.map lowerChar) = false → host ≠ [] →
      get_domain (chars ("http://") ++ host ++ '/' :: path) = host.map lowerChar) ∧
    get_domain (chars ("http://[::1/x")) = chars ("unknown") := by
  have hw' : ∀ c ∈ host, isNetlocEnd c = false ∧ c ≠ '[' ∧ c ≠ ']' ∧
      c ≠ '\t' ∧ c ≠ '\r' ∧ c ≠ '\n' := by
    intro c hc
    have h := hw c hc
    simp only [plainHostChar, Bool.and_eq_true, bne_iff_ne, decide_eq_true_eq,
      Bool.not_eq_true'] at h
    exact ⟨h.1.1.1.1.1.2, h.1.1.1.1.2, h.1.1.1.2, h.1.1.2, h.1.2, h.2⟩
  have hstrip : stripUnsafe (host ++ '/' :: path) = host ++ '/' :: stripUnsafe path := by
    simp only [stripUnsafe, List.filter_append, List.filter_cons]
    have h1 : host.filter (fun c => !(c == '\t' || c == '\r' || c == '\n')) = host := by
      apply List.filter_eq_self.2
      intro c hc
      obtain ⟨_, _, _, h4, h5, h6⟩ := hw' c hc
      simp [h4, h5, h6]
    rw [h1]
    rfl
  have hnet : urlNetloc (chars ("http://") ++ host ++ '/' :: path) = host := by
    have he : chars ("http://") ++ host ++ '/' :: path =
        'h' :: 't' :: 't' :: 'p' :: ':' :: '/' :: '/' :: (host ++ '/' :: path) := by
      simp [chars]
    rw [he, urlNetloc_http, hstrip]
    exact takeWhile_all_append _ host (stripUnsafe path) '/'
      (fun c hc => by simp [(hw' c hc).1]) rfl
  have hbm : bracket_mismatch host = false := by
    have hl : '[' ∉ host := fun hmem => ((hw' _ hmem).2.1 rfl).elim
    have hr : ']' ∉ host := fun hmem => ((hw' _ hmem).2.2.1 rfl).elim
    simp [bracket_mismatch, hl, hr]
  refine ⟨?_, ?_, by decide⟩
  · simp only [get_domain, hnet, hbm]
    rw [if_neg (by simp)]
  · intro hinf hne
    have hra := removeAll_of_no_infix _ _ hinf
    have hm : host.map lowerChar ≠ [] := by
      intro hcon
      exact hne (List.map_eq_nil_iff.1 hcon)
    simp only [get_domain, hnet, hbm, hra]
    rw [if_neg (by simp), if_neg hm]

/-- C7 witness: the amended theorem applied to the host `sub.example.com`. -/
theorem c7_get_domain_amended_witness :
    get_domain (chars ("http://") ++ chars ("Sub.Example.com") ++ '/' :: chars ("x")) =
      chars ("sub.example.com") :=
  (c7_get_domain_amended (chars ("Sub.Example.com")) (chars ("x")) (by decide)).2.1
    (by decide) (by decide)

/-- C9 (counterexample): the normaliser is not idempotent.  For
U+1D2C MODIFIER LETTER CAPITAL A (`ᴬ`, a caseless letter), lower-casing is
the identity and NFKD yields the plain capital `A`, so one normalisation
returns `A`; normalising again lower-cases it to `a`. -/
theorem c9_normalise_counterexample :
    normalise_text (chars ("ᴬ")) = chars ("A") ∧
    normalise_text (normalise_text (chars ("ᴬ"))) = chars ("a") ∧
    normalise_text (normalise_text (chars ("ᴬ"))) ≠ normalise_text (chars ("ᴬ")) := by
  decide

/-- C9 (amended): on strings of ASCII characters the normaliser is plain
lower-casing and is idempotent: `normalise_text (normalise_text s) =
normalise_text s`. -/
theorem c9_normalise_idempotent_ascii (s : List Char)
    (h : ∀ c ∈ s, c ∈ asciiList) :
    normalise_text (normalise_text s) = normalise_text s := by
  have h1 : normalise_text s = s.map lowerChar := normalise_text_ascii s h
  have h2 : ∀ c ∈ s.map lowerChar, c ∈ asciiList := by
    intro c hc
    obtain ⟨d, hd, rfl⟩ := List.mem_map.1 hc
    exact (ascii_char_facts d (h d hd)).1
  rw [h1, normalise_text_ascii _ h2, List.map_map]
  apply List.map_congr_left
  intro d hd
  exact (ascii_char_facts d (h d hd)).2.2.2

/-- C9 witness: idempotence at the ASCII string `Matt Corby`. -/
theorem c9_normalise_idempotent_ascii_witness :
    normalise_text (normalise_text (chars ("Matt Corby"))) =
      normalise_text (chars ("Matt Corby")) :=
  c9_normalise_idempotent_ascii (chars ("Matt Corby")) (by decide)

/-- C1 (counterexample): on the spec's own fixture the scorer does not
return 4.2 (42 tenths): the claim's sum omits the 0.7 bonus for the client
name appearing in the first 200 normalised characters of the body text,
which this entry text earns. -/
theorem c1_relevance_counterexample :
    calculate_relevance_score (chars ("Matt Corby announces a new album tour"))
      (chars ("Matt Corby")) (chars ("Matt Corby")) ≠ 42 := by
  decide

/-- C1 (amended): for the entry text `Matt Corby announces a new album
tour` with title and client `Matt Corby`, the scorer returns exactly 4.9
(49 tenths) = 1.0 base + 2.0 client-in-title + 0.7 client within the first
200 normalised characters + 0.3 for each of the four keywords album, new,
announces, tour — below the 5.0 clamp. -/
theorem c1_relevance_score_value :
    calculate_relevance_score (chars ("Matt Corby announces a new album tour"))
      (chars ("Matt Corby")) (chars ("Matt Corby")) = 49 := by
  decide

/-- C10 (confirmed): the recency filter has no upper bound.  For every
non-negative lookback `days`, an entry whose parsed timestamp is in the
future (strictly after `now`) passes `within_days` and survives
`filter_recent_entries`. -/
theorem c10_future_timestamps_included (now days : Int) (hd : 0 ≤ days)
    (entries : List Entry) (e : Entry) (d : Int)
    (he : e ∈ entries) (hp : parse_datetime_from_entry e = some d)
    (hf : now < d) :
    within_days now (parse_datetime_from_entry e) days = true ∧
      e ∈ filter_recent_entries now entries days := by
  have hw : within_days now (parse_datetime_from_entry e) days = true := by
    rw [hp]
    simp only [within_days, decide_eq_true_eq]
    have h1 : 0 ≤ days * 86400 := mul_nonneg hd (by norm_num)
    omega
  exact ⟨hw, List.mem_filter.2 ⟨he, hw⟩⟩

/-- C10 witness: a future-dated entry (one hour after `now`) is kept with a
7-day lookback. -/
theorem c10_future_timestamps_included_witness :
    within_days 0 (parse_datetime_from_entry
      { id := [], guid := [], title := [], summary := [], description := [],
        content_encoded := [], content := [], link := [],
        published_parsed := some 3600, updated_parsed := none,
        created_parsed := none }) 7 = true :=
  (c10_future_timestamps_included 0 7 (by decide)
    [{ id := [], guid := [], title := [], summary := [], description := [],
       content_encoded := [], content := [], link := [],
       published_parsed := some 3600, updated_parsed := none,
       created_parsed := none }]
    { id := [], guid := [], title := [], summary := [], description := [],
      content_encoded := [], content := [], link := [],
      published_parsed := some 3600, updated_parsed := none,
      created_parsed := none }
    3600 (by decide) (by decide) (by decide)).1

/-- C3 (counterexample): a reported match may be immediately preceded by a
word character.  For the client name `abc` (normalised length 3) and the
text `x@abc`, the compiled pattern fires: its `@`-mention variant matches
the substring `@abc` at position 1, immediately preceded by the word
character `x` — the `\b` alternative of `BOUNDARY` is satisfied at the
word→non-word transition before `@`. -/
theorem c3_boundary_counterexample :
    name_variants_base (chars ("abc")) = some (chars ("abc")) ∧
    patternSearch (chars ("abc")) (chars ("x@abc")) = true ∧
    matchV3At (chars ("abc")) (chars ("x@abc")) 1 = true ∧
    prevWordAt (chars ("x@abc")) 1 = true := by
  decide

/-- C3 (amended): every reported match is never immediately *followed* by a
word character (END_BOUND), and is never immediately *preceded* by one
whenever the first character of the matched substring is itself a word
character — which covers the bare and possessive variants of names
beginning with a word character, while the `@name`/`#name` variants begin
with the non-word `@`/`#` and may follow a word character.  `Art` still
never matches inside `Artisan`. -/
theorem c3_boundary_amended (base t : List Char) (i : Nat)
    (_hlen : 3 ≤ base.length) :
    (matchV1At base t i = true →
      wordAt t (i + base.length) = false ∧
      (wordAt t i = true → prevWordAt t i = false)) ∧
    (matchV2At base t i = true →
      wordAt t (i + base.length + 2) = false ∧
      (wordAt t i = true → prevWordAt t i = false)) ∧
    (matchV3At base t i = true →
      wordAt t (i + 1 + base.length) = false ∧
      (wordAt t i = true → prevWordAt t i = false)) ∧
    (matchV4At base t i = true →
      wordAt t (i + 1 + base.length) = false ∧
      (wordAt t i = true → prevWordAt t i = false)) ∧
    patternSearch (chars ("art")) (chars ("artisan")) = false := by
  have hb : boundaryAt t i = true → wordAt t i = true → prevWordAt t i = false := by
    intro h hw
    by_cases hp : prevWordAt t i = true
    · rw [boundaryAt, hp, hw] at h
      simp at h
    · exact Bool.not_eq_true _ ▸ (by revert hp; cases prevWordAt t i <;> simp)
  refine ⟨?_, ?_, ?_, ?_, by decide⟩
  · intro h
    rw [matchV1At] at h
    simp only [Bool.and_eq_true] at h
    exact ⟨by simpa using h.2, hb h.1.1⟩
  · intro h
    rw [matchV2At] at h
    simp only [Bool.and_eq_true] at h
    exact ⟨by simpa using h.2, hb h.1.1.1.1⟩
  · intro h
    rw [matchV3At] at h
    simp only [Bool.and_eq_true] at h
    exact ⟨by simpa using h.2, hb h.1.1.1⟩
  · intro h
    rw [matchV4At] at h
    simp only [Bool.and_eq_true] at h
    exact ⟨by simpa using h.2, hb h.1.1.1⟩

/-- C3 witness: the amended theorem applied to the bare-name variant of
`abc` matching inside ` abc-`: the match is neither preceded nor followed
by a word character. -/
theorem c3_boundary_amended_witness :
    wordAt (chars (" abc-")) (1 + (chars ("abc")).length) = false ∧
      (wordAt (chars (" abc-")) 1 = true → prevWordAt (chars (" abc-")) 1 = false) :=
  (c3_boundary_amended (chars ("abc")) (chars (" abc-")) 1 (by decide)).1 (by decide)

/-- The keyword pass only ever adds non-negative bonuses. -/
theorem foldl_keyword_ge (nt : List Char) (l : List (List Char)) :
    ∀ x : Int, x ≤ l.foldl (fun sc kw => if infixOfB kw nt then sc + 3 else sc) x := by
  induction l with
  | nil => intro x; simp
  | cons a t ih =>
    intro x
    simp only [List.foldl_cons]
    refine le_trans ?_ (ih (if infixOfB a nt then x + 3 else x))
    split <;> omega

/-- The scorer starts at 1.0 (10 tenths), only adds non-negative bonuses,
and clamps at 5.0 (50 tenths): its value lies in [10, 50]. -/
theorem calculate_relevance_score_bounds (text client title : List Char) :
    10 ≤ calculate_relevance_score text client title ∧
      calculate_relevance_score text client title ≤ 50 := by
  have hfold := foldl_keyword_ge (normalise_text text) keyword_list
  simp only [calculate_relevance_score]
  constructor
  · split_ifs <;> first
      | omega
      | (refine le_trans ?_ (hfold _); omega)
  · split_ifs <;> omega

/-- A property of the fold state preserved by every step is preserved by
the whole fold. -/
theorem foldl_preserve {α σ : Type} (f : σ → α → σ) (Q : σ → Prop)
    (hf : ∀ s a, Q s → Q (f s a)) : ∀ (l : List α) (s : σ), Q s → Q (l.foldl f s) := by
  intro l
  induction l with
  | nil => intro s hs; simpa using hs
  | cons a t ih => intro s hs; simpa using ih (f s a) (hf s a hs)

/-- Every match appended by the per-entry step has its score in [10, 50]. -/
theorem process_entry_preserves_bounds (ctx : ScanCtx) (u : List Char)
    (st : ScanState) (e : Entry)
    (h : ∀ m ∈ st.all_matches, 10 ≤ m.relevance_score ∧ m.relevance_score ≤ 50) :
    ∀ m ∈ (process_entry ctx u st e).all_matches,
      10 ≤ m.relevance_score ∧ m.relevance_score ≤ 50 := by
  intro m hm
  simp only [process_entry] at hm
  split_ifs at hm
  · exact h m hm
  · exact h m hm
  · exact h m hm
  · rcases List.mem_append.1 hm with h1 | h1
    · exact h m h1
    · obtain ⟨c, _, rfl⟩ := List.mem_map.1 h1
      exact calculate_relevance_score_bounds _ _ _

/-- C4 (confirmed): every Match produced by a scan has its relevance score
in the closed interval [1.0, 5.0] (that is, [10, 50] in tenths). -/
theorem c4_relevance_score_bounds (ctx : ScanCtx)
    (fetch : List Char → Except Unit (List Entry)) (order : List (List Char)) :
    ∀ m ∈ scan_feeds_ordered ctx fetch order,
      10 ≤ m.relevance_score ∧ m.relevance_score ≤ 50 := by
  intro m hm
  simp only [scan_feeds_ordered, sort_matches] at hm
  have hperm := List.perm_insertionSort (fun a b => matchLe a b = true)
    (process_feeds ctx fetch ⟨[], []⟩ order).all_matches
  have hm2 : m ∈ (process_feeds ctx fetch ⟨[], []⟩ order).all_matches :=
    hperm.mem_iff.1 hm
  have hfeed : ∀ (st : ScanState) (u : List Char),
      (∀ m ∈ st.all_matches, 10 ≤ m.relevance_score ∧ m.relevance_score ≤ 50) →
      ∀ m ∈ (process_feed ctx fetch st u).all_matches,
        10 ≤ m.relevance_score ∧ m.relevance_score ≤ 50 := by
    intro st u hst
    exact foldl_preserve (process_entry ctx u)
      (fun s => ∀ m ∈ s.all_matches, 10 ≤ m.relevance_score ∧ m.relevance_score ≤ 50)
      (fun s e hq => process_entry_preserves_bounds ctx u s e hq)
      (recent_entries ctx fetch u) st hst
  have := foldl_preserve (process_feed ctx fetch)
    (fun s => ∀ m ∈ s.all_matches, 10 ≤ m.relevance_score ∧ m.relevance_score ≤ 50)
    hfeed order ⟨[], []⟩ (by intro m hm; simp at hm)
  exact this m hm2

/-- A sample scan environment: one client, `now` at epoch 0, 7-day window. -/
def sample_ctx : ScanCtx :=
  { clients := [chars ("Matt Corby")], now := 0, days := 7,
    ts_render := fun _ => chars ("2026-01-01 00:00"),
    found_date := chars ("2026-01-01 00:00:00") }

/-- Sample entry: a dated item titled `Matt Corby tour` with guid `g1`. -/
def entry_tour : Entry :=
  { id := chars ("g1"), guid := [], title := chars ("Matt Corby tour"),
    summary := [], description := [], content_encoded := [], content := [],
    link := [], published_parsed := some 0, updated_parsed := none,
    created_parsed := none }

/-- Sample entry with the *same* guid `g1` but a different title, as
delivered by a second feed. -/
def entry_album_dup : Entry :=
  { entry_tour with title := chars ("Matt Corby album") }

/-- Sample entry with a distinct guid `g2`. -/
def entry_album : Entry :=
  { entry_tour with id := chars ("g2"), title := chars ("Matt Corby album") }

/-- Sample feed URLs. -/
def feed_u1 : List Char := chars ("u1")

/-- Second sample feed URL. -/
def feed_u2 : List Char := chars ("u2")

/-- Fetch function delivering the same guid from two different feeds. -/
def dup_fetch : List Char → Except Unit (List Entry) := fun u =>
  if u = feed_u1 then .ok [entry_tour]
  else if u = feed_u2 then .ok [entry_album_dup]
  else .error ()

/-- Fetch function delivering distinct guids from the two feeds. -/
def disj_fetch : List Char → Except Unit (List Entry) := fun u =>
  if u = feed_u1 then .ok [entry_tour]
  else if u = feed_u2 then .ok [entry_album]
  else .error ()

/-- `dup_fetch` with the duplicate entry removed from the second feed. -/
def dup_fetch_removed : List Char → Except Unit (List Entry) := fun u =>
  if u = feed_u1 then .ok [entry_tour]
  else if u = feed_u2 then .ok []
  else .error ()

/-- Fetch function whose second feed always fails. -/
def fail_fetch : List Char → Except Unit (List Entry) := fun u =>
  if u = feed_u1 then .ok [entry_tour] else .error ()

/-- Fetch function that always fails. -/
def all_fail_fetch : List Char → Except Unit (List Entry) := fun _ => .error ()

/-- The Match the sample scan produces. -/
def sample_match : Match :=
  { client := chars ("Matt Corby"), title := chars ("Matt Corby tour"),
    description := [], link := chars ("No Link"),
    published := chars ("2026-01-01 00:00"), source := feed_u1,
    domain := chars ("unknown"), found_date := chars ("2026-01-01 00:00:00"),
    relevance_score := 40 }

/-- C4 witness: the bounds at the concrete match produced by a sample
scan. -/
theorem c4_relevance_score_bounds_witness :
    10 ≤ sample_match.relevance_score ∧ sample_match.relevance_score ≤ 50 :=
  c4_relevance_score_bounds sample_ctx dup_fetch [feed_u1, feed_u2]
    sample_match (by decide)

/-- Characters with equal code points are equal. -/
theorem char_toNat_inj (a b : Char) (h : a.toNat = b.toNat) : a = b :=
  Char.ofNat_toNat a ▸ Char.ofNat_toNat b ▸ congrArg Char.ofNat h

/-- String comparison is asymmetric. -/
theorem strLtB_asymm : ∀ (a b : List Char), strLtB a b = true → strLtB b a = false
  | [], [], h => by simp [strLtB] at h
  | [], _ :: _, _ => by simp [strLtB]
  | _ :: _, [], h => by simp [strLtB] at h
  | a :: as_, b :: bs, h => by
    simp only [strLtB] at h ⊢
    by_cases h1 : a.toNat < b.toNat
    · have h2 : ¬ b.toNat < a.toNat := by omega
      simp [h1, h2]
    · by_cases h2 : b.toNat < a.toNat
      · simp [h1, h2] at h
      · simp only [if_neg h1, if_neg h2] at h ⊢
        exact strLtB_asymm as_ bs h

/-- Two strings neither of which precedes the other are equal. -/
theorem strLtB_eq_of_not_lt : ∀ (a b : List Char),
    strLtB a b = false → strLtB b a = false → a = b
  | [], [], _, _ => rfl
  | [], _ :: _, h, _ => by simp [strLtB] at h
  | _ :: _, [], _, h => by simp [strLtB] at h
  | a :: as_, b :: bs, h1, h2 => by
    simp only [strLtB] at h1 h2
    by_cases hab : a.toNat < b.toNat
    · simp [hab] at h1
    · by_cases hba : b.toNat < a.toNat
      · simp [hba] at h2
      · have he : a = b := char_toNat_inj a b (by omega)
        subst he
        simp only [if_neg hab, if_neg hba] at h1 h2
        exact congrArg (a :: ·) (strLtB_eq_of_not_lt as_ bs h1 h2)

/-- String comparison is transitive. -/
theorem strLtB_trans : ∀ (a b c : List Char),
    strLtB a b = true → strLtB b c = true → strLtB a c = true
  | [], b, c, h1, h2 => by
    cases b with
    | nil => simp [strLtB] at h1
    | cons x xs =>
      cases c with
      | nil => simp [strLtB] at h2
      | cons y ys => simp [strLtB]
  | a :: as_, b, c, h1, h2 => by
    cases b with
    | nil => simp [strLtB] at h1
    | cons x xs =>
      cases c with
      | nil => simp [strLtB] at h2
      | cons y ys =>
        simp only [strLtB] at h1 h2 ⊢
        by_cases hax : a.toNat < x.toNat
        · by_cases hxy : x.toNat < y.toNat
          · simp [show a.toNat < y.toNat by omega]
          · by_cases hyx : y.toNat < x.toNat
            · simp [hxy, hyx] at h2
            · have : x = y := char_toNat_inj x y (by omega)
              subst this
              simp [hax]
        · by_cases hxa : x.toNat < a.toNat
          · simp [hax, hxa] at h1
          · have : a = x := char_toNat_inj a x (by omega)
            subst this
            simp only [if_neg hax, if_neg hxa] at h1
            by_cases hay : a.toNat < y.toNat
            · simp [hay]
            · by_cases hya : y.toNat < a.toNat
              · simp [hay, hya] at h2
              · have : a = y := char_toNat_inj a y (by omega)
                subst this
                simp only [if_neg hay, if_neg hya] at h2 ⊢
                exact strLtB_trans as_ xs ys h1 h2

/-- String comparison is irreflexive. -/
theorem strLtB_irrefl : ∀ a : List Char, strLtB a a = false
  | [] => rfl
  | c :: t => by
    simp only [strLtB, lt_irrefl, if_neg, if_false]
    simpa using strLtB_irrefl t

/-- Unfolded reading of the sort comparison: strictly greater score, or
equal scores and strictly smaller domain, or equal scores and domains and
title not greater. -/
theorem matchLe_iff (a b : Match) : matchLe a b = true ↔
    (b.relevance_score < a.relevance_score ∨
      (a.relevance_score = b.relevance_score ∧
        (strLtB a.domain b.domain = true ∨
          (a.domain = b.domain ∧ strLtB b.title a.title = false)))) := by
  simp only [matchLe]
  by_cases h1 : b.relevance_score < a.relevance_score
  · simp [h1]
  · by_cases h2 : a.relevance_score < b.relevance_score
    · simp only [if_neg h1, if_pos h2]
      constructor
      · intro h; simp at h
      · intro h
        rcases h with h | ⟨he, _⟩
        · exact absurd h h1
        · omega
    · have hse : a.relevance_score = b.relevance_score := by omega
      simp only [if_neg h1, if_neg h2]
      by_cases h3 : strLtB a.domain b.domain = true
      · simp [h3, hse]
      · by_cases h4 : strLtB b.domain a.domain = true
        · have hne : a.domain ≠ b.domain := by
            intro he
            rw [he] at h4
            have hf := strLtB_asymm b.domain b.domain h4
            rw [hf] at h4
            exact Bool.false_ne_true h4
          simp [h3, h4, h1, hse, hne]
        · have hde : a.domain = b.domain :=
            strLtB_eq_of_not_lt _ _ (by simpa using h3) (by simpa using h4)
          simp [h3, h4, h1, hse, hde, strLtB_irrefl]

/-- The sort comparison is total. -/
theorem matchLe_total (a b : Match) : matchLe a b = true ∨ matchLe b a = true := by
  rw [matchLe_iff, matchLe_iff]
  by_cases h1 : b.relevance_score < a.relevance_score
  · exact Or.inl (Or.inl h1)
  · by_cases h2 : a.relevance_score < b.relevance_score
    · exact Or.inr (Or.inl h2)
    · have hse : a.relevance_score = b.relevance_score := by omega
      by_cases h3 : strLtB a.domain b.domain = true
      · exact Or.inl (Or.inr ⟨hse, Or.inl h3⟩)
      · by_cases h4 : strLtB b.domain a.domain = true
        · exact Or.inr (Or.inr ⟨hse.symm, Or.inl h4⟩)
        · have hde : a.domain = b.domain :=
            strLtB_eq_of_not_lt _ _ (by simpa using h3) (by simpa using h4)
          by_cases h5 : strLtB b.title a.title = true
          · refine Or.inr (Or.inr ⟨hse.symm, Or.inr ⟨hde.symm, ?_⟩⟩)
            exact strLtB_asymm _ _ h5
          · exact Or.inl (Or.inr ⟨hse, Or.inr ⟨hde, by simpa using h5⟩⟩)

/-- The sort comparison is transitive. -/
theorem matchLe_trans (a b c : Match) (h1 : matchLe a b = true)
    (h2 : matchLe b c = true) : matchLe a c = true := by
  rw [matchLe_iff] at h1 h2 ⊢
  rcases h1 with h1 | ⟨hs1, h1⟩
  · rcases h2 with h2 | ⟨hs2, _⟩
    · exact Or.inl (by omega)
    · exact Or.inl (by omega)
  · rcases h2 with h2 | ⟨hs2, h2⟩
    · exact Or.inl (by omega)
    · refine Or.inr ⟨by omega, ?_⟩
      rcases h1 with h1 | ⟨hd1, h1⟩
      · rcases h2 with h2 | ⟨hd2, _⟩
        · exact Or.inl (strLtB_trans _ _ _ h1 h2)
        · exact Or.inl (hd2 ▸ h1)
      · rcases h2 with h2 | ⟨hd2, h2⟩
        · exact Or.inl (hd1 ▸ h2)
        · refine Or.inr ⟨hd1.trans hd2, ?_⟩
          by_cases hca : strLtB c.title a.title = true
          · by_cases hab : strLtB a.title b.title = true
            · have hcb := strLtB_trans _ _ _ hca hab
              rw [hcb] at h2
              exact Bool.noConfusion h2
            · have he : a.title = b.title :=
                strLtB_eq_of_not_lt _ _ (by simpa using hab) h1
              rw [← he] at h2
              exact h2
          · simpa using hca

/-- C6 (confirmed): the scan's output is sorted by descending relevance
score, then ascending domain, then ascending title: for every pair in
output order, the later match has a strictly smaller score, or an equal
score and a strictly larger domain, or equal score and domain and a title
that is not smaller. -/
theorem c6_output_sorted (ctx : ScanCtx)
    (fetch : List Char → Except Unit (List Entry)) (order : List (List Char)) :
    (scan_feeds_ordered ctx fetch order).Pairwise (fun a b =>
      b.relevance_score < a.relevance_score ∨
        (a.relevance_score = b.relevance_score ∧
          (strLtB a.domain b.domain = true ∨
            (a.domain = b.domain ∧ strLtB b.title a.title = false)))) := by
  letI : IsTotal Match (fun a b => matchLe a b = true) := ⟨matchLe_total⟩
  letI : IsTrans Match (fun a b => matchLe a b = true) := ⟨matchLe_trans⟩
  have hs := List.sorted_insertionSort (fun a b => matchLe a b = true)
    (process_feeds ctx fetch ⟨[], []⟩ order).all_matches
  simp only [scan_feeds_ordered, sort_matches]
  exact hs.imp (fun h => (matchLe_iff _ _).1 h)

/-- An entry whose dedupe key was already seen is skipped entirely: the
state is unchanged. -/
theorem process_entry_skip (ctx : ScanCtx) (u : List Char) (st : ScanState)
    (e : Entry) (h : dedupe_key e ∈ st.seen) :
    process_entry ctx u st e = st := by
  simp [process_entry, h]

/-- The per-entry step leaves `seen` unchanged or appends exactly the
entry's key. -/
theorem process_entry_seen_cases (ctx : ScanCtx) (u : List Char)
    (st : ScanState) (e : Entry) :
    (process_entry ctx u st e).seen = st.seen ∨
      (process_entry ctx u st e).seen = st.seen ++ [dedupe_key e] := by
  simp only [process_entry]
  split_ifs <;> simp

/-- `seen` only grows across one entry. -/
theorem process_entry_seen_mono (ctx : ScanCtx) (u : List Char)
    (st : ScanState) (e : Entry) (k : List Char) (h : k ∈ st.seen) :
    k ∈ (process_entry ctx u st e).seen := by
  rcases process_entry_seen_cases ctx u st e with hc | hc <;> rw [hc] <;> simp [h]

/-- After its own step, an entry's key is in `seen`. -/
theorem process_entry_key_mem (ctx : ScanCtx) (u : List Char)
    (st : ScanState) (e : Entry) :
    dedupe_key e ∈ (process_entry ctx u st e).seen := by
  rcases process_entry_seen_cases ctx u st e with hc | hc
  · simp only [process_entry] at hc ⊢
    split_ifs at hc ⊢ with h1
    · exact h1
    all_goals simp
  · rw [hc]; simp

/-- `seen` only grows across a list of entries. -/
theorem entries_seen_mono (ctx : ScanCtx) (u : List Char) :
    ∀ (es : List Entry) (st : ScanState) (k : List Char), k ∈ st.seen →
      k ∈ (es.foldl (process_entry ctx u) st).seen := by
  intro es
  induction es with
  | nil => intro st k h; simpa using h
  | cons e t ih =>
    intro st k h
    simp only [List.foldl_cons]
    exact ih _ k (process_entry_seen_mono ctx u st e k h)

/-- Every processed entry's key ends up in `seen`. -/
theorem entries_key_mem (ctx : ScanCtx) (u : List Char) :
    ∀ (es : List Entry) (st : ScanState) (e : Entry), e ∈ es →
      dedupe_key e ∈ (es.foldl (process_entry ctx u) st).seen := by
  intro es
  induction es with
  | nil => intro st e h; simp at h
  | cons a t ih =>
    intro st e h
    simp only [List.foldl_cons]
    rcases List.mem_cons.1 h with rfl | h2
    · exact entries_seen_mono ctx u t _ _ (process_entry_key_mem ctx u st e)
    · exact ih _ e h2

/-- An entry whose key is already in `seen` can be deleted from the middle
of a feed's entry list without changing the fold. -/
theorem entries_skip_middle (ctx : ScanCtx) (u : List Char) (e2 : Entry) :
    ∀ (a b : List Entry) (st : ScanState), dedupe_key e2 ∈ st.seen →
      (a ++ e2 :: b).foldl (process_entry ctx u) st =
        (a ++ b).foldl (process_entry ctx u) st := by
  intro a
  induction a with
  | nil =>
    intro b st h
    simp only [List.nil_append, List.foldl_cons]
    rw [process_entry_skip ctx u st e2 h]
  | cons x t ih =>
    intro b st h
    simp only [List.cons_append, List.foldl_cons]
    exact ih b _ (process_entry_seen_mono ctx u st x _ h)

/-- The keys added by a fold over entries all come from those entries. -/
theorem entries_seen_suffix (ctx : ScanCtx) (u : List Char) :
    ∀ (es : List Entry) (st : ScanState),
      ∃ ext, (es.foldl (process_entry ctx u) st).seen = st.seen ++ ext ∧
        ∀ k ∈ ext, ∃ e ∈ es, k = dedupe_key e := by
  intro es
  induction es with
  | nil => intro st; exact ⟨[], by simp, by simp⟩
  | cons e t ih =>
    intro st
    obtain ⟨ext, hx, hk⟩ := ih (process_entry ctx u st e)
    rcases process_entry_seen_cases ctx u st e with hc | hc
    · refine ⟨ext, ?_, ?_⟩
      · simp only [List.foldl_cons]
        rw [hx, hc]
      · intro k hk2
        obtain ⟨e', he', hke⟩ := hk k hk2
        exact ⟨e', List.mem_cons_of_mem e he', hke⟩
    · refine ⟨dedupe_key e :: ext, ?_, ?_⟩
      · simp only [List.foldl_cons]
        rw [hx, hc]
        simp
      · intro k hk2
        rcases List.mem_cons.1 hk2 with rfl | h2
        · exact ⟨e, List.mem_cons_self e t, rfl⟩
        · obtain ⟨e', he', hke⟩ := hk k h2
          exact ⟨e', List.mem_cons_of_mem e he', hke⟩

/-- `seen` only grows across whole feeds. -/
theorem process_feeds_seen_mono (ctx : ScanCtx)
    (fetch : List Char → Except Unit (List Entry)) :
    ∀ (order : List (List Char)) (st : ScanState) (k : List Char),
      k ∈ st.seen → k ∈ (process_feeds ctx fetch st order).seen := by
  intro order
  induction order with
  | nil => intro st k h; simpa using h
  | cons u t ih =>
    intro st k h
    simp only [process_feeds, List.foldl_cons]
    exact ih _ k (entries_seen_mono ctx u _ st k h)

/-- The key of every recency-surviving entry of every processed feed ends
up in `seen`. -/
theorem process_feeds_key_mem (ctx : ScanCtx)
    (fetch : List Char → Except Unit (List Entry)) :
    ∀ (order : List (List Char)) (st : ScanState) (u : List Char) (e : Entry),
      u ∈ order → e ∈ recent_entries ctx fetch u →
      dedupe_key e ∈ (process_feeds ctx fetch st order).seen := by
  intro order
  induction order with
  | nil => intro st u e h; simp at h
  | cons v t ih =>
    intro st u e h he
    simp only [process_feeds, List.foldl_cons]
    rcases List.mem_cons.1 h with rfl | h2
    · exact process_feeds_seen_mono ctx fetch t _ _
        (entries_key_mem ctx u _ st e he)
    · exact ih _ u e h2 he

/-- Two fetch functions that deliver the same recency-surviving entries on
every feed of the order produce the same scan state. -/
theorem process_feeds_congr (ctx : ScanCtx)
    (f g : List Char → Except Unit (List Entry)) :
    ∀ (order : List (List Char)) (st : ScanState),
      (∀ u ∈ order, recent_entries ctx f u = recent_entries ctx g u) →
      process_feeds ctx f st order = process_feeds ctx g st order := by
  intro order
  induction order with
  | nil => intro st _; rfl
  | cons u t ih =>
    intro st h
    simp only [process_feeds, List.foldl_cons]
    have h1 : process_feed ctx f st u = process_feed ctx g st u := by
      simp only [process_feed, h u (List.mem_cons_self u t)]
    rw [h1]
    exact ih _ (fun v hv => h v (List.mem_cons_of_mem u hv))

/-- C8 (confirmed): per-feed failure is contained.  A feed whose fetch
fails contributes zero entries and behaves exactly like a feed delivering
an empty list — matches from the other feeds are unaffected — and a scan
in which every feed fails returns the empty match list.  (The model's scan
is a total function: a feed task failure is the `.error` value, which the
orchestrator converts to zero entries rather than letting it propagate.) -/
theorem c8_feed_failure_contained (ctx : ScanCtx)
    (fetch : List Char → Except Unit (List Entry))
    (order : List (List Char)) (u0 : List Char) :
    (fetch u0 = .error () →
      scan_feeds_ordered ctx fetch order =
        scan_feeds_ordered ctx (fun u => if u = u0 then .ok [] else fetch u) order) ∧
    ((∀ u ∈ order, fetch u = .error ()) →
      scan_feeds_ordered ctx fetch order = []) := by
  constructor
  · intro hf
    have hcong : ∀ u ∈ order, recent_entries ctx fetch u =
        recent_entries ctx (fun u => if u = u0 then .ok [] else fetch u) u := by
      intro u _
      by_cases hu : u = u0
      · subst hu
        simp [recent_entries, feed_entries, hf]
      · simp [recent_entries, feed_entries, hu]
    simp only [scan_feeds_ordered]
    rw [process_feeds_congr ctx fetch _ order ⟨[], []⟩ hcong]
  · intro hall
    have hnil : ∀ (o : List (List Char)) (st : ScanState),
        (∀ u ∈ o, fetch u = .error ()) → process_feeds ctx fetch st o = st := by
      intro o
      induction o with
      | nil => intro st _; rfl
      | cons u t ih =>
        intro st h
        simp only [process_feeds, List.foldl_cons]
        have h1 : process_feed ctx fetch st u = st := by
          simp [process_feed, recent_entries, feed_entries,
            h u (List.mem_cons_self u t), filter_recent_entries]
        rw [h1]
        exact ih st (fun v hv => h v (List.mem_cons_of_mem u hv))
    simp only [scan_feeds_ordered]
    rw [hnil order ⟨[], []⟩ hall]
    rfl

/-- Decidable equality of fetch results (for concrete witnesses). -/
instance : DecidableEq (Except Unit (List Entry)) := fun a b =>
  match a, b with
  | .error x, .error y => isTrue (by cases x; cases y; rfl)
  | .ok x, .ok y =>
    if h : x = y then isTrue (congrArg Except.ok h)
    else isFalse (fun hc => h (by injection hc))
  | .error _, .ok _ => isFalse (fun hc => Except.noConfusion hc)
  | .ok _, .error _ => isFalse (fun hc => Except.noConfusion hc)

/-- C8 witness: with feed `u2` failing, the scan equals the scan in which
`u2` delivers no entries; with every feed failing, the scan returns `[]`. -/
theorem c8_feed_failure_contained_witness :
    scan_feeds_ordered sample_ctx fail_fetch [feed_u1, feed_u2] =
      scan_feeds_ordered sample_ctx
        (fun u => if u = feed_u2 then .ok [] else fail_fetch u) [feed_u1, feed_u2] ∧
    scan_feeds_ordered sample_ctx all_fail_fetch [feed_u1, feed_u2] = [] :=
  ⟨(c8_feed_failure_contained sample_ctx fail_fetch [feed_u1, feed_u2] feed_u2).1
      (by decide),
   (c8_feed_failure_contained sample_ctx all_fail_fetch [feed_u1, feed_u2] feed_u2).2
      (by decide)⟩

/-- Entries with the same non-empty id/guid have the same dedupe key. -/
theorem dedupe_key_of_guid (e1 e2 : Entry) (h : entry_guid e1 = entry_guid e2)
    (hne : entry_guid e2 ≠ []) : dedupe_key e1 = dedupe_key e2 := by
  simp only [dedupe_key, h]
  simp [hne]

/-- C5 (confirmed): dedupe is feed-union-wide.  If a feed `u1` processed
earlier in the completion order delivers a recency-surviving entry `e1`
with the same non-empty id/guid as an entry `e2` delivered by a later feed
`u2`, then `e2` is skipped entirely: the whole scan output is unchanged
when `e2` is deleted from `u2`'s entry list — only the first entry
processed with that key can yield Match records. -/
theorem c5_cross_feed_dedupe (ctx : ScanCtx)
    (fetch fetch' : List Char → Except Unit (List Entry))
    (pre post : List (List Char)) (u1 u2 : List Char) (e1 e2 : Entry)
    (a b : List Entry)
    (hu1 : u1 ∈ pre) (he1 : e1 ∈ recent_entries ctx fetch u1)
    (hkey : entry_guid e1 = entry_guid e2) (hg : entry_guid e2 ≠ [])
    (hf : fetch u2 = .ok (a ++ e2 :: b)) (hf' : fetch' u2 = .ok (a ++ b))
    (hsame : ∀ v, v ≠ u2 → fetch' v = fetch v)
    (hpre : u2 ∉ pre) (hpost : u2 ∉ post) :
    scan_feeds_ordered ctx fetch (pre ++ u2 :: post) =
      scan_feeds_ordered ctx fetch' (pre ++ u2 :: post) := by
  have hrec : ∀ v, v ≠ u2 → recent_entries ctx fetch v = recent_entries ctx fetch' v := by
    intro v hv
    simp [recent_entries, feed_entries, hsame v hv]
  have hpre_eq : process_feeds ctx fetch' ⟨[], []⟩ pre =
      process_feeds ctx fetch ⟨[], []⟩ pre :=
    process_feeds_congr ctx fetch' fetch pre ⟨[], []⟩
      (fun v hv => (hrec v (fun hc => hpre (hc ▸ hv))).symm)
  have hk2 : dedupe_key e2 ∈ (process_feeds ctx fetch ⟨[], []⟩ pre).seen := by
    have h := process_feeds_key_mem ctx fetch pre ⟨[], []⟩ u1 e1 hu1 he1
    rwa [dedupe_key_of_guid e1 e2 hkey hg] at h
  have hfeed : process_feed ctx fetch (process_feeds ctx fetch ⟨[], []⟩ pre) u2 =
      process_feed ctx fetch' (process_feeds ctx fetch ⟨[], []⟩ pre) u2 := by
    simp only [process_feed, recent_entries, feed_entries, hf, hf',
      filter_recent_entries, List.filter_append, List.filter_cons]
    by_cases hw : within_days ctx.now (parse_datetime_from_entry e2) ctx.days = true
    · rw [if_pos hw]
      exact entries_skip_middle ctx u2 e2 _ _ _ hk2
    · rw [if_neg hw]
  have hsplit : ∀ (f : List Char → Except Unit (List Entry)),
      process_feeds ctx f ⟨[], []⟩ (pre ++ u2 :: post) =
        process_feeds ctx f
          (process_feed ctx f (process_feeds ctx f ⟨[], []⟩ pre) u2) post := by
    intro f
    simp only [process_feeds, List.foldl_append, List.foldl_cons]
  suffices h : process_feeds ctx fetch ⟨[], []⟩ (pre ++ u2 :: post) =
      process_feeds ctx fetch' ⟨[], []⟩ (pre ++ u2 :: post) by
    simp only [scan_feeds_ordered, h]
  rw [hsplit fetch, hsplit fetch', hpre_eq, ← hfeed]
  exact process_feeds_congr ctx fetch fetch' post _
    (fun v hv => hrec v (fun hc => hpost (hc ▸ hv)))

/-- C5 witness: two feeds deliver entries with the same guid `g1`; deleting
the later feed's copy does not change the scan output, and that output has
exactly one Match for the client. -/
theorem c5_cross_feed_dedupe_witness :
    scan_feeds_ordered sample_ctx dup_fetch ([feed_u1] ++ feed_u2 :: []) =
      scan_feeds_ordered sample_ctx dup_fetch_removed ([feed_u1] ++ feed_u2 :: []) :=
  c5_cross_feed_dedupe sample_ctx dup_fetch dup_fetch_removed
    [feed_u1] [] feed_u1 feed_u2 entry_tour entry_album_dup [] []
    (by decide) (by decide) (by decide) (by decide) (by decide) (by decide)
    (by intro v hv; simp only [dup_fetch, dup_fetch_removed]; rw [if_neg hv, if_neg hv])
    (by decide) (by decide)

/-- The matches one feed contributes when none of its keys were seen
before (processing it against a fresh state). -/
def feed_delta (ctx : ScanCtx) (fetch : List Char → Except Unit (List Entry))
    (u : List Char) : List Match :=
  ((recent_entries ctx fetch u).foldl (process_entry ctx u) ⟨[], []⟩).all_matches

/-- The dedupe keys of one feed's recency-surviving entries. -/
def feed_keys (ctx : ScanCtx) (fetch : List Char → Except Unit (List Entry))
    (u : List Char) : List (List Char) :=
  (recent_entries ctx fetch u).map dedupe_key

/-- One entry step decomposes: starting from the same `seen` list, the new
`seen` and the appended matches are independent of the matches already
accumulated. -/
theorem process_entry_decomp (ctx : ScanCtx) (u : List Char)
    (s : List (List Char)) (m : List Match) (e : Entry) :
    ∃ s2 δ, process_entry ctx u ⟨s, m⟩ e = ⟨s2, m ++ δ⟩ ∧
      process_entry ctx u ⟨s, []⟩ e = ⟨s2, δ⟩ := by
  simp only [process_entry]
  split_ifs
  · exact ⟨s, [], by simp, by simp⟩
  · exact ⟨s ++ [dedupe_key e], [], by simp, by simp⟩
  · exact ⟨s ++ [dedupe_key e], [], by simp, by simp⟩
  · exact ⟨s ++ [dedupe_key e],
      (match_clients_in_text ctx.clients (entry_text e)).map
        (mk_match ctx u e (entry_text e)), by simp, by simp⟩

/-- Folding entries from the same `seen` list: the accumulated matches are
a prefix, and the appended matches do not depend on them. -/
theorem entries_matches_acc (ctx : ScanCtx) (u : List Char) :
    ∀ (es : List Entry) (s : List (List Char)) (m : List Match),
      es.foldl (process_entry ctx u) ⟨s, m⟩ =
        ⟨(es.foldl (process_entry ctx u) ⟨s, []⟩).seen,
         m ++ (es.foldl (process_entry ctx u) ⟨s, []⟩).all_matches⟩ := by
  intro es
  induction es with
  | nil => intro s m; simp
  | cons e t ih =>
    intro s m
    obtain ⟨s2, δ, h1, h2⟩ := process_entry_decomp ctx u s m e
    simp only [List.foldl_cons, h1, h2]
    rw [ih s2 (m ++ δ), ih s2 δ]
    simp

/-- Folding entries whose keys avoid a prefix `s0` of the `seen` list: the
prefix is inert — dedupe decisions and appended matches agree with a run
that never saw `s0`. -/
theorem entries_shift (ctx : ScanCtx) (u : List Char) :
    ∀ (es : List Entry) (s0 s : List (List Char)) (m : List Match),
      (∀ e ∈ es, dedupe_key e ∉ s0) →
      es.foldl (process_entry ctx u) ⟨s0 ++ s, m⟩ =
        ⟨s0 ++ (es.foldl (process_entry ctx u) ⟨s, []⟩).seen,
         m ++ (es.foldl (process_entry ctx u) ⟨s, []⟩).all_matches⟩ := by
  intro es
  induction es with
  | nil => intro s0 s m _; simp
  | cons e t ih =>
    intro s0 s m h
    have hke : dedupe_key e ∉ s0 := h e (List.mem_cons_self e t)
    have htail : ∀ e' ∈ t, dedupe_key e' ∉ s0 :=
      fun e' he' => h e' (List.mem_cons_of_mem e he')
    simp only [List.foldl_cons]
    by_cases hks : dedupe_key e ∈ s
    · rw [process_entry_skip ctx u ⟨s0 ++ s, m⟩ e (by simp [hks]),
        process_entry_skip ctx u ⟨s, []⟩ e hks]
      exact ih s0 s m htail
    · have hnotin : dedupe_key e ∉ s0 ++ s := by
        simp [hke, hks]
      obtain ⟨s2, δ, h1, h2⟩ := process_entry_decomp ctx u s [] e
      have hs2 : process_entry ctx u ⟨s, []⟩ e = ⟨s2, δ⟩ := by
        rw [h2]
      have hs2' : s2 = s ++ [dedupe_key e] := by
        have := process_entry_seen_cases ctx u ⟨s, []⟩ e
        rw [hs2] at this
        rcases this with hc | hc
        · exfalso
          apply hks
          have hkm := process_entry_key_mem ctx u ⟨s, []⟩ e
          rw [hs2] at hkm
          change s2 = s at hc
          change dedupe_key e ∈ s2 at hkm
          rw [← hc]
          exact hkm
        · exact hc
      have h1' : process_entry ctx u ⟨s0 ++ s, m⟩ e = ⟨(s0 ++ s) ++ [dedupe_key e], m ++ δ⟩ := by
        simp only [process_entry, if_neg hnotin, if_neg hks] at h2 ⊢
        split_ifs at h2 ⊢ <;> simp_all
      rw [h1', hs2, hs2']
      have hres := ih s0 (s ++ [dedupe_key e]) (m ++ δ) htail
      rw [List.append_assoc, hres, entries_matches_acc ctx u t (s ++ [dedupe_key e]) δ]
      simp

/-- Processing one feed whose surviving keys avoid the current `seen` list
appends exactly that feed's fresh-state contribution. -/
theorem process_feed_decomp (ctx : ScanCtx)
    (fetch : List Char → Except Unit (List Entry)) (st : ScanState)
    (u : List Char)
    (hdisj : ∀ e ∈ recent_entries ctx fetch u, dedupe_key e ∉ st.seen) :
    process_feed ctx fetch st u =
      ⟨st.seen ++ ((recent_entries ctx fetch u).foldl (process_entry ctx u) ⟨[], []⟩).seen,
       st.all_matches ++ feed_delta ctx fetch u⟩ := by
  have h := entries_shift ctx u (recent_entries ctx fetch u) st.seen [] st.all_matches hdisj
  simpa [process_feed, feed_delta] using h

/-- Every key a fresh-state feed run records comes from that feed. -/
theorem feed_inner_seen_sub (ctx : ScanCtx)
    (fetch : List Char → Except Unit (List Entry)) (u : List Char) :
    ∀ k ∈ ((recent_entries ctx fetch u).foldl (process_entry ctx u) ⟨[], []⟩).seen,
      k ∈ feed_keys ctx fetch u := by
  intro k hk
  obtain ⟨ext, hx, he⟩ := entries_seen_suffix ctx u (recent_entries ctx fetch u) ⟨[], []⟩
  rw [hx] at hk
  simp only [List.nil_append] at hk
  obtain ⟨e, he2, rfl⟩ := he k hk
  exact List.mem_map_of_mem dedupe_key he2

/-- With pairwise-disjoint per-feed key sets (and `seen` starting disjoint
from every feed), the scan's match list is the concatenation of the
independent per-feed contributions in completion order. -/
theorem process_feeds_decomp (ctx : ScanCtx)
    (fetch : List Char → Except Unit (List Entry)) :
    ∀ (order : List (List Char)) (s : List (List Char)) (m : List Match),
      (∀ u ∈ order, ∀ k ∈ feed_keys ctx fetch u, k ∉ s) →
      order.Pairwise (fun u v => ∀ k ∈ feed_keys ctx fetch v, k ∉ feed_keys ctx fetch u) →
      (process_feeds ctx fetch ⟨s, m⟩ order).all_matches =
        m ++ (order.map (feed_delta ctx fetch)).flatten := by
  intro order
  induction order with
  | nil => intro s m _ _; simp [process_feeds]
  | cons u t ih =>
    intro s m hdisj hpw
    simp only [process_feeds, List.foldl_cons]
    have hd1 : ∀ e ∈ recent_entries ctx fetch u, dedupe_key e ∉ (⟨s, m⟩ : ScanState).seen := by
      intro e he
      exact hdisj u (List.mem_cons_self u t) (dedupe_key e)
        (List.mem_map_of_mem dedupe_key he)
    rw [process_feed_decomp ctx fetch ⟨s, m⟩ u hd1]
    have hpwc := List.pairwise_cons.1 hpw
    have hd2 : ∀ v ∈ t, ∀ k ∈ feed_keys ctx fetch v,
        k ∉ (⟨s, m⟩ : ScanState).seen ++
          ((recent_entries ctx fetch u).foldl (process_entry ctx u) ⟨[], []⟩).seen := by
      intro v hv k hkv
      simp only [List.mem_append]
      push_neg
      constructor
      · exact hdisj v (List.mem_cons_of_mem u hv) k hkv
      · intro hkin
        exact hpwc.1 v hv k hkv (feed_inner_seen_sub ctx fetch u k hkin)
    have hres := ih
      ((⟨s, m⟩ : ScanState).seen ++
        ((recent_entries ctx fetch u).foldl (process_entry ctx u) ⟨[], []⟩).seen)
      ((⟨s, m⟩ : ScanState).all_matches ++ feed_delta ctx fetch u) hd2 hpwc.2
    simp only [process_feeds] at hres
    rw [hres]
    simp

/-- The Python sort key of a match: `(-relevance_score, domain, title)`
(the score sign is dropped since only equality of keys matters here). -/
def match_sort_key (m : Match) : Int × List Char × List Char :=
  (m.relevance_score, m.domain, m.title)

/-- Matches comparing ≤ in both directions have equal sort keys. -/
theorem matchLe_antisymm_key (a b : Match) (h1 : matchLe a b = true)
    (h2 : matchLe b a = true) : match_sort_key a = match_sort_key b := by
  rw [matchLe_iff] at h1 h2
  have hs : a.relevance_score = b.relevance_score := by
    rcases h1 with h1 | ⟨h1, _⟩ <;> rcases h2 with h2 | ⟨h2, _⟩ <;> omega
  have hd : a.domain = b.domain := by
    rcases h1 with h1 | ⟨_, h1⟩
    · omega
    rcases h2 with h2 | ⟨_, h2⟩
    · omega
    rcases h1 with h1 | ⟨h1, _⟩
    · rcases h2 with h2 | ⟨h2, _⟩
      · have := strLtB_asymm _ _ h1
        rw [this] at h2
        exact Bool.noConfusion h2
      · exact h2.symm
    · exact h1
  have ht : a.title = b.title := by
    rcases h1 with h1 | ⟨_, h1⟩
    · omega
    rcases h2 with h2 | ⟨_, h2⟩
    · omega
    rcases h1 with h1 | ⟨_, h1⟩
    · rw [hd, strLtB_irrefl] at h1
      exact Bool.noConfusion h1
    rcases h2 with h2 | ⟨_, h2⟩
    · rw [hd] at h2
      rw [strLtB_irrefl] at h2
      exact Bool.noConfusion h2
    · exact strLtB_eq_of_not_lt a.title b.title h2 h1
  simp [match_sort_key, hs, hd, ht]

/-- Two sorted lists that are permutations of each other and whose sort
keys are pairwise distinct are equal. -/
theorem sorted_perm_distinct_eq : ∀ (l1 l2 : List Match),
    l1.Pairwise (fun x y => matchLe x y = true) →
    l2.Pairwise (fun x y => matchLe x y = true) →
    l1.Perm l2 →
    l1.Pairwise (fun x y => match_sort_key x ≠ match_sort_key y) →
    l1 = l2 := by
  intro l1
  induction l1 with
  | nil =>
    intro l2 _ _ hp _
    exact hp.nil_eq
  | cons a t ih =>
    intro l2 h1 h2 hp hk
    cases l2 with
    | nil => exact absurd hp.symm.nil_eq (by simp)
    | cons b t2 =>
      by_cases hab : a = b
      · subst hab
        have hp' : t.Perm t2 := hp.cons_inv
        rw [ih t2 (List.pairwise_cons.1 h1).2 (List.pairwise_cons.1 h2).2 hp'
          (List.pairwise_cons.1 hk).2]
      · have ha2 : a ∈ b :: t2 := hp.subset (List.mem_cons_self a t)
        have ha3 : a ∈ t2 := by
          rcases List.mem_cons.1 ha2 with h | h
          · exact absurd h hab
          · exact h
        have hb1 : b ∈ a :: t := hp.symm.subset (List.mem_cons_self b t2)
        have hb2 : b ∈ t := by
          rcases List.mem_cons.1 hb1 with h | h
          · exact absurd h.symm hab
          · exact h
        have h5 : matchLe a b = true := (List.pairwise_cons.1 h1).1 b hb2
        have h6 : matchLe b a = true := (List.pairwise_cons.1 h2).1 a ha3
        exact absurd (matchLe_antisymm_key a b h5 h6) ((List.pairwise_cons.1 hk).1 b hb2)

/-- C2 (counterexample): the final match list is *not* independent of the
completion order.  With `dup_fetch`, the two feeds deliver entries sharing
the guid `g1` but with different titles; whichever feed's task is
processed first wins the dedupe race, so the two completion orders of the
same feed set produce different Match records. -/
theorem c2_completion_order_counterexample :
    ([feed_u1, feed_u2] : List (List Char)).Perm [feed_u2, feed_u1] ∧
    scan_feeds_ordered sample_ctx dup_fetch [feed_u1, feed_u2] ≠
      scan_feeds_ordered sample_ctx dup_fetch [feed_u2, feed_u1] := by
  decide

/-- C2 (amended): the final match list is identical across any two
completion orders of the same feed set, *provided* (a) no dedupe key of one
feed's recency-surviving entries occurs among another completion position's
keys, and (b) no two per-feed contributed matches share the sort key
`(relevance_score, domain, title)`.  (Without (a) the shared dedupe set
makes the surviving record depend on the processing order; without (b) the
stable sort preserves the order-dependent insertion order of tied
matches.) -/
theorem c2_completion_order_determinism (ctx : ScanCtx)
    (fetch : List Char → Except Unit (List Entry))
    (order1 order2 : List (List Char))
    (hperm : order1.Perm order2)
    (hdisj : order1.Pairwise
      (fun u v => ∀ k ∈ feed_keys ctx fetch v, k ∉ feed_keys ctx fetch u))
    (hkeys : ((order1.map (feed_delta ctx fetch)).flatten).Pairwise
      (fun m1 m2 => match_sort_key m1 ≠ match_sort_key m2)) :
    scan_feeds_ordered ctx fetch order1 = scan_feeds_ordered ctx fetch order2 := by
  have hsymD : ∀ {u v : List Char},
      (∀ k ∈ feed_keys ctx fetch v, k ∉ feed_keys ctx fetch u) →
      (∀ k ∈ feed_keys ctx fetch u, k ∉ feed_keys ctx fetch v) := by
    intro u v h k hku hkv
    exact h k hkv hku
  have hdisj2 : order2.Pairwise
      (fun u v => ∀ k ∈ feed_keys ctx fetch v, k ∉ feed_keys ctx fetch u) :=
    (List.Perm.pairwise_iff hsymD hperm).1 hdisj
  have h1 := process_feeds_decomp ctx fetch order1 [] [] (by simp) hdisj
  have h2 := process_feeds_decomp ctx fetch order2 [] [] (by simp) hdisj2
  simp only [List.nil_append] at h1 h2
  have hpm : ((order1.map (feed_delta ctx fetch)).flatten).Perm
      ((order2.map (feed_delta ctx fetch)).flatten) :=
    (hperm.map (feed_delta ctx fetch)).flatten
  letI : IsTotal Match (fun a b => matchLe a b = true) := ⟨matchLe_total⟩
  letI : IsTrans Match (fun a b => matchLe a b = true) := ⟨matchLe_trans⟩
  simp only [scan_feeds_ordered, sort_matches, h1, h2]
  apply sorted_perm_distinct_eq
  · exact List.sorted_insertionSort _ _
  · exact List.sorted_insertionSort _ _
  · exact ((List.perm_insertionSort _ _).trans hpm).trans
      (List.perm_insertionSort _ _).symm
  · have hsymK : ∀ {x y : Match},
        match_sort_key x ≠ match_sort_key y → match_sort_key y ≠ match_sort_key x :=
      fun h => fun hc => h hc.symm
    exact (List.Perm.pairwise_iff hsymK (List.perm_insertionSort _ _)).2 hkeys

/-- C2 witness: with distinct guids and distinct sort keys, the two
completion orders of the sample feed set produce identical output. -/
theorem c2_completion_order_determinism_witness :
    scan_feeds_ordered sample_ctx disj_fetch [feed_u1, feed_u2] =
      scan_feeds_ordered sample_ctx disj_fetch [feed_u2, feed_u1] :=
  c2_completion_order_determinism sample_ctx disj_fetch
    [feed_u1, feed_u2] [feed_u2, feed_u1] (by decide) (by decide) (by decide)
